import Mathlib

/-!
Shallow embedding of `src/EntityManager.js` (redux-orm entity branch manager).

The branch tree holds an ordered id array (`tree[arrName]`) and an id-to-attributes
map (`tree[mapName]`).  Ids and attribute values are JavaScript numbers; the only
non-finite number the code can produce is `-Infinity` (from `Math.max()` applied to
an empty spread), so numbers are modelled as integers extended with a negative
infinity.  JavaScript objects are modelled as association lists with
`Object.assign` / spread semantics; no claim below depends on object key
enumeration order, only on lookups and key sets.
-/

namespace EM

/-- Fragment of JavaScript numbers reachable in this code: finite integers plus
`-Infinity`, the value of `Math.max()` on an empty argument list. -/
inductive JNum where
  | negInf : JNum
  | fin : Int → JNum
deriving DecidableEq

/-- JavaScript `<` on the modelled numbers. -/
def JNum.lt : JNum → JNum → Bool
  | .negInf, .fin _ => true
  | .negInf, .negInf => false
  | .fin _, .negInf => false
  | .fin a, .fin b => a < b

/-- Binary `Math.max` on the modelled numbers. -/
def JNum.max2 (a b : JNum) : JNum := if JNum.lt a b then b else a

/-- JavaScript `x + 1`; `-Infinity + 1` is `-Infinity`. -/
def JNum.addOne : JNum → JNum
  | .negInf => .negInf
  | .fin n => .fin (n + 1)

/-- `Math.max(...arr)`: the empty spread yields `-Infinity`. -/
def mathMax (l : List JNum) : JNum := l.foldl JNum.max2 JNum.negInf

/-- Attribute record of one entity (a JavaScript object): string keys, number
values, modelled as an ordered association list. -/
abbrev Attrs : Type := List (String × JNum)

/-- Property read `o[k]`: first matching key, `undefined` as `none`. -/
def lookupKey {κ ν : Type} [DecidableEq κ] : List (κ × ν) → κ → Option ν
  | [], _ => none
  | (k', v') :: rest, k => if k' = k then some v' else lookupKey rest k

/-- Property write `o[k] = v`: replaces the value in place when the key exists,
appends the key otherwise. -/
def setKey {κ ν : Type} [DecidableEq κ] : List (κ × ν) → κ → ν → List (κ × ν)
  | [], k, v => [(k, v)]
  | (k', v') :: rest, k, v => if k' = k then (k, v) :: rest else (k', v') :: setKey rest k v

/-- `Object.keys`. -/
def keysOf {κ ν : Type} (m : List (κ × ν)) : List κ := m.map Prod.fst

/-- `Object.assign(base, ...patch)` / spread `{...base, ...patch}`: entries of
`patch`, in order, override or extend `base`. -/
def objAssign {κ ν : Type} [DecidableEq κ] (base patch : List (κ × ν)) : List (κ × ν) :=
  patch.foldl (fun acc kv => setKey acc kv.1 kv.2) base

/-- The managed branch: `tree[arrName]` (id array) and `tree[mapName]`
(id-to-attributes map). -/
structure Tree where
  idSeq : List JNum
  emap : List (JNum × Attrs)
deriving DecidableEq

/-- The `updater` payload of an update mutation: a merge-patch object or a
mapping function (the function receives `entityMap[id]`, possibly `undefined`). -/
inductive Updater where
  | merge : Attrs → Updater
  | fn : (Option Attrs → Attrs) → Updater

/-- A mutation record as pushed on `this.mutations`; `unknown` stands for any
action type not matched by the reducers' `switch` statements. -/
inductive Action where
  | create : Attrs → Action
  | update : List JNum → Updater → Action
  | delete : List JNum → Action
  | order : List String → Action
  | unknown : Action

/-- `nextId()`: `Math.max(...this.getIdArray()) + 1`, always read from the
manager's original tree. -/
def nextId (t : Tree) : JNum := (mathMax t.idSeq).addOne

/-- `getFullEntity(id)`: `Object.assign({[idAttribute]: id}, entityMap[id])`;
an absent map entry contributes nothing. -/
def getFullEntity (idAttr : String) (t : Tree) (i : JNum) : Attrs :=
  match lookupKey t.emap i with
  | none => [(idAttr, i)]
  | some attrs => objAssign [(idAttr, i)] attrs

/-- `getFullEntities()`: the full-entity view of every id in the original
tree's id array, in order. -/
def getFullEntities (idAttr : String) (t : Tree) : List Attrs :=
  t.idSeq.map (getFullEntity idAttr t)

/-- `entity[idAttribute]` on a full entity (always defined there; the default
is unreachable). -/
def entIdOf (idAttr : String) (e : Attrs) : JNum :=
  (lookupKey e idAttr).getD JNum.negInf

/-- lodash `baseCompareAscending` on two property values: numbers compare with
`<`, `undefined` sorts last in ascending order. -/
def ascLt (a b : Option JNum) : Bool :=
  match a, b with
  | some x, some y => JNum.lt x y
  | some _, none => true
  | none, _ => false

/-- Multi-key ascending comparison used by lodash `sortByAll`: the first key
whose values differ decides; equal on all keys means "keep original order". -/
def lexLe (keys : List String) (a b : Attrs) : Bool :=
  match keys with
  | [] => true
  | k :: rest =>
      if lookupKey a k = lookupKey b k then lexLe rest a b
      else ascLt (lookupKey a k) (lookupKey b k)

/-- lodash `sortByAll(collection, props)`: the stable ascending multi-key sort
(lodash breaks comparator ties by original index, so its output is exactly the
stable sort for `lexLe`, realised here by insertion sort). -/
def sortByAll (keys : List String) (l : List Attrs) : List Attrs :=
  List.insertionSort (fun a b => lexLe keys a b = true) l

/-- Applying the `mapper` built in `reduceEntityMap`'s UPDATE branch to
`entityMap[id]`: `entity => Object.assign({}, entity, patch)` for a merge
patch (an `undefined` entity contributes nothing), or the updater function. -/
def applyUpdater (u : Updater) (e : Option Attrs) : Attrs :=
  match u with
  | .merge p => objAssign (objAssign [] (e.getD [])) p
  | .fn f => f e

/-- `reduceIdArray(idArr, action)`; `orig` is the manager's tree, read by
`this.nextId()` and `this.getFullEntities()`. -/
def reduceIdArray (idAttr : String) (orig : Tree) (idArr : List JNum) (a : Action) : List JNum :=
  match a with
  | .create _ => idArr ++ [nextId orig]
  | .delete ids => idArr.filter (fun i => !(decide (i ∈ ids)))
  | .order keys => (sortByAll keys (getFullEntities idAttr orig)).map (entIdOf idAttr)
  | _ => idArr

/-- `reduceEntityMap(entityMap, action)`; `orig` is the manager's tree, read by
`this.nextId()`. -/
def reduceEntityMap (orig : Tree) (emap : List (JNum × Attrs)) (a : Action) :
    List (JNum × Attrs) :=
  match a with
  | .create props => setKey emap (nextId orig) (objAssign [] props)
  | .update ids u =>
      let updatedMap := ids.foldl (fun acc i => setKey acc i (applyUpdater u (lookupKey emap i))) []
      objAssign emap updatedMap
  | .delete ids => emap.filter (fun kv => !(decide (kv.1 ∈ ids)))
  | _ => emap

/-- One step of the fold inside `reduce()`: both sub-reducers applied in
lock-step to the running state. -/
def stepTree (idAttr : String) (orig : Tree) (s : Tree) (a : Action) : Tree :=
  { idSeq := reduceIdArray idAttr orig s.idSeq a,
    emap := reduceEntityMap orig s.emap a }

/-- `reduce()`: fold the mutation log left to right over the original tree. -/
def reduce (idAttr : String) (orig : Tree) (log : List Action) : Tree :=
  log.foldl (stepTree idAttr orig) orig

/-- Modelled from the spec: the predicate matcher `match(lookup, entity)` of
`utils.js` (not under `src/`): true iff every key of `lookup` is present in
`entity` with an equal value (subset match). -/
def matchLookup (lookup entity : Attrs) : Bool :=
  lookup.all (fun kv => decide (lookupKey entity kv.1 = some kv.2))

/-- The two failures `get(lookupObj)` can throw. -/
inductive GetErr where
  | emptyStore : GetErr
  | notFound : GetErr
deriving DecidableEq

/-- `get(lookupObj)`.  The guard `!this.exists()` is modelled from the spec:
`QuerySet#exists` (QuerySet.js is not under `src/`) is true iff the id
sequence is non-empty. The returned `Entity` is modelled by its attribute
snapshot (Entity.js is not under `src/`; the spec describes it as a snapshot
of the props it is constructed with). `find` is lodash `find`: the first
element satisfying the predicate, `undefined` when none does. -/
def getEnt (idAttr : String) (t : Tree) (lookup : Attrs) : Except GetErr Attrs :=
  if t.idSeq.isEmpty then .error .emptyStore
  else
    match lookupKey lookup idAttr with
    | some v => .ok (getFullEntity idAttr t v)
    | none =>
        match (getFullEntities idAttr t).find? (fun e => matchLookup lookup e) with
        | some e => .ok e
        | none => .error .notFound

/-- Manager instance state: the tree given at construction and the mutation
log, initially empty, grown only by pushes. -/
structure Manager where
  tree : Tree
  mutations : List Action

/-- `create(props)`: push a CREATE record; the returned Entity is modelled by
its props snapshot. -/
def mCreate (m : Manager) (props : Attrs) : Manager × Attrs :=
  ({ tree := m.tree, mutations := m.mutations ++ [Action.create props] }, props)

/-- `setOrder(arg)`: push an ORDER record. -/
def mSetOrder (m : Manager) (keys : List String) : Manager :=
  { tree := m.tree, mutations := m.mutations ++ [Action.order keys] }

/-- Modelled from the spec: `update(updater)` forwards to a QuerySet over the
full current id array, and `QuerySet#update` (QuerySet.js is not under `src/`)
appends an UPDATE record scoped to that QuerySet's ids. -/
def mUpdateAll (m : Manager) (u : Updater) : Manager :=
  { tree := m.tree, mutations := m.mutations ++ [Action.update m.tree.idSeq u] }

/-- Modelled from the spec: `delete()` forwards to a QuerySet over the full
current id array, and `QuerySet#delete` (QuerySet.js is not under `src/`)
appends a DELETE record scoped to that QuerySet's ids. -/
def mDeleteAll (m : Manager) : Manager :=
  { tree := m.tree, mutations := m.mutations ++ [Action.delete m.tree.idSeq] }

/-- One write call of a session, as issued through the manager. -/
inductive WriteOp where
  | wcreate : Attrs → WriteOp
  | worder : List String → WriteOp
  | wupdate : Updater → WriteOp
  | wdelete : WriteOp

/-- Apply one write call to the manager instance. -/
def applyWrite (m : Manager) : WriteOp → Manager
  | .wcreate p => (mCreate m p).1
  | .worder ks => mSetOrder m ks
  | .wupdate u => mUpdateAll m u
  | .wdelete => mDeleteAll m

/-- A whole session's worth of write calls, in order. -/
def applyWrites (m : Manager) (ws : List WriteOp) : Manager :=
  ws.foldl applyWrite m

/-- The branch-state invariant of the spec's data model: the key set of the
attributes map equals the element set of the id sequence and neither side has
duplicates. -/
def Inv (s : Tree) : Prop :=
  (keysOf s.emap).Nodup ∧ s.idSeq.Nodup ∧
    (∀ x ∈ keysOf s.emap, x ∈ s.idSeq) ∧ (∀ x ∈ s.idSeq, x ∈ keysOf s.emap)

instance (s : Tree) : Decidable (Inv s) := by
  unfold Inv
  infer_instance

/-- Well-formedness from the spec's data model: stored attribute records never
contain the id attribute itself. -/
def WfAttrs (idAttr : String) (t : Tree) : Prop :=
  ∀ kv ∈ t.emap, lookupKey kv.2 idAttr = none

instance (idAttr : String) (t : Tree) : Decidable (WfAttrs idAttr t) := by
  unfold WfAttrs
  infer_instance

/-- The record kinds whose reduction steps preserve the branch invariant:
deletes, updates that only touch ids present in the running map, and unknown
record types. -/
def okAction (s : Tree) : Action → Bool
  | .update ids _ => ids.all (fun i => decide (i ∈ keysOf s.emap))
  | .delete _ => true
  | .unknown => true
  | _ => false

/-- `okAction` holding at every step of a fold of the log from state `s`. -/
def okLog (idAttr : String) (orig : Tree) (s : Tree) : List Action → Bool
  | [] => true
  | a :: rest => okAction s a && okLog idAttr orig (stepTree idAttr orig s a) rest

/-- All states the fold inside `reduce()` passes through, starting from `s`:
the initial state, every intermediate state, and the final state. -/
def statesFrom (idAttr : String) (orig s : Tree) : List Action → List Tree
  | [] => [s]
  | a :: rest => s :: statesFrom idAttr orig (stepTree idAttr orig s a) rest

section AssocLemmas

variable {κ ν : Type} [DecidableEq κ]

@[simp] theorem keysOf_nil : keysOf ([] : List (κ × ν)) = [] := rfl

@[simp] theorem keysOf_cons (kv : κ × ν) (m : List (κ × ν)) :
    keysOf (kv :: m) = kv.1 :: keysOf m := rfl

theorem lookupKey_setKey_self (m : List (κ × ν)) (k : κ) (v : ν) :
    lookupKey (setKey m k v) k = some v := by
  induction m with
  | nil => simp [setKey, lookupKey]
  | cons kv rest ih =>
      by_cases h : kv.1 = k
      · simp [setKey, h, lookupKey]
      · simp [setKey, h, lookupKey, ih]

theorem lookupKey_setKey_ne (m : List (κ × ν)) (k j : κ) (v : ν) (h : j ≠ k) :
    lookupKey (setKey m k v) j = lookupKey m j := by
  have h' : ¬ (k = j) := fun hh => h hh.symm
  induction m with
  | nil => simp [setKey, lookupKey, h']
  | cons kv rest ih =>
      by_cases hk : kv.1 = k
      · simp [setKey, lookupKey, hk, h']
      · simp [setKey, hk, lookupKey, ih]

theorem lookupKey_eq_none_of_not_mem (m : List (κ × ν)) (k : κ) (h : k ∉ keysOf m) :
    lookupKey m k = none := by
  induction m with
  | nil => simp [lookupKey]
  | cons kv rest ih =>
      have h1 : ¬ (kv.1 = k) := fun hh => h (by simp [hh])
      have h2 : k ∉ keysOf rest := fun hh => h (by simp [hh])
      simp [lookupKey, h1, ih h2]

theorem keysOf_setKey (m : List (κ × ν)) (k : κ) (v : ν) :
    keysOf (setKey m k v) =
      if k ∈ keysOf m then keysOf m else keysOf m ++ [k] := by
  induction m with
  | nil => simp [setKey]
  | cons kv rest ih =>
      by_cases hk : kv.1 = k
      · simp [setKey, hk]
      · have hne : ¬ (k = kv.1) := fun hh => hk hh.symm
        have hs : setKey (kv :: rest) k v = kv :: setKey rest k v := by
          simp [setKey, hk]
        rw [hs, keysOf_cons, keysOf_cons, ih]
        by_cases hm : k ∈ keysOf rest
        · simp [hm, hne]
        · simp [hm, hne]

theorem lookupKey_objAssign_of_none (base patch : List (κ × ν)) (k : κ)
    (h : lookupKey patch k = none) :
    lookupKey (objAssign base patch) k = lookupKey base k := by
  induction patch generalizing base with
  | nil => simp [objAssign]
  | cons kv rest ih =>
      have hne : ¬ (kv.1 = k) := by
        intro hh
        simp [lookupKey, hh] at h
      have hr : lookupKey rest k = none := by
        simpa [lookupKey, hne] using h
      have hstep : objAssign base (kv :: rest) = objAssign (setKey base kv.1 kv.2) rest := by
        simp [objAssign]
      rw [hstep, ih _ hr, lookupKey_setKey_ne]
      intro hh
      exact hne hh.symm

theorem lookupKey_objAssign_nodup (base patch : List (κ × ν)) (k : κ)
    (h : (keysOf patch).Nodup) :
    lookupKey (objAssign base patch) k =
      match lookupKey patch k with
      | some v => some v
      | none => lookupKey base k := by
  induction patch generalizing base with
  | nil => simp [objAssign, lookupKey]
  | cons kv rest ih =>
      rw [keysOf_cons, List.nodup_cons] at h
      have hstep : objAssign base (kv :: rest) = objAssign (setKey base kv.1 kv.2) rest := by
        simp [objAssign]
      by_cases hk : kv.1 = k
      · have hrn : lookupKey rest k = none :=
          lookupKey_eq_none_of_not_mem _ _ (hk ▸ h.1)
        rw [hstep, ih _ h.2, hrn]
        simp [lookupKey, hk, hk ▸ lookupKey_setKey_self base kv.1 kv.2]
      · rw [hstep, ih _ h.2]
        have hpre : lookupKey (setKey base kv.1 kv.2) k = lookupKey base k :=
          lookupKey_setKey_ne _ _ _ _ (fun hh => hk hh.symm)
        simp [lookupKey, hk, hpre]

theorem keysOf_objAssign_of_sub (base patch : List (κ × ν))
    (h : ∀ k ∈ keysOf patch, k ∈ keysOf base) :
    keysOf (objAssign base patch) = keysOf base := by
  induction patch generalizing base with
  | nil => simp [objAssign]
  | cons kv rest ih =>
      have hstep : objAssign base (kv :: rest) = objAssign (setKey base kv.1 kv.2) rest := by
        simp [objAssign]
      have hmem : kv.1 ∈ keysOf base := h kv.1 (by simp)
      have hkeys : keysOf (setKey base kv.1 kv.2) = keysOf base := by
        simp [keysOf_setKey, hmem]
      rw [hstep, ih _ ?_, hkeys]
      rw [hkeys]
      intro k hk
      exact h k (by simp [hk])

theorem setKey_of_not_mem (m : List (κ × ν)) (k : κ) (v : ν) (h : k ∉ keysOf m) :
    setKey m k v = m ++ [(k, v)] := by
  induction m with
  | nil => simp [setKey]
  | cons kv rest ih =>
      have h1 : ¬ (kv.1 = k) := fun hh => h (by simp [hh])
      have h2 : k ∉ keysOf rest := fun hh => h (by simp [hh])
      simp [setKey, h1, ih h2]

theorem objAssign_of_disjoint (base patch : List (κ × ν))
    (hd : ∀ k ∈ keysOf patch, k ∉ keysOf base) (hn : (keysOf patch).Nodup) :
    objAssign base patch = base ++ patch := by
  induction patch generalizing base with
  | nil => simp [objAssign]
  | cons kv rest ih =>
      rw [keysOf_cons, List.nodup_cons] at hn
      have hstep : objAssign base (kv :: rest) = objAssign (setKey base kv.1 kv.2) rest := by
        simp [objAssign]
      have hb : kv.1 ∉ keysOf base := hd kv.1 (by simp)
      rw [hstep, setKey_of_not_mem _ _ _ hb, ih _ ?_ hn.2]
      · simp
      · intro k hk
        have hkb : k ∉ keysOf base := hd k (by simp [hk])
        have hkk : ¬ (k = kv.1) := by
          intro hh
          subst hh
          exact hn.1 hk
        have happ : keysOf (base ++ [(kv.1, kv.2)]) = keysOf base ++ [kv.1] := by
          simp [keysOf]
        rw [happ]
        simp [hkb, hkk]

theorem objAssign_nil_of_nodup (m : List (κ × ν)) (h : (keysOf m).Nodup) :
    objAssign [] m = m := by
  have := objAssign_of_disjoint ([] : List (κ × ν)) m (by simp) h
  simpa using this

theorem lookupKey_foldl_setKey (g : κ → ν) (ids : List κ) (acc : List (κ × ν)) (j : κ) :
    lookupKey (ids.foldl (fun acc i => setKey acc i (g i)) acc) j =
      if j ∈ ids then some (g j) else lookupKey acc j := by
  induction ids generalizing acc with
  | nil => simp
  | cons x rest ih =>
      by_cases hj : j ∈ rest
      · simp [ih, hj]
      · by_cases hx : j = x
        · subst hx
          simp [ih, hj, lookupKey_setKey_self]
        · simp [ih, hj, hx, lookupKey_setKey_ne _ _ _ _ hx]

theorem mem_keysOf_foldl_setKey (g : κ → ν) (ids : List κ) (acc : List (κ × ν)) (j : κ) :
    j ∈ keysOf (ids.foldl (fun acc i => setKey acc i (g i)) acc) ↔
      j ∈ ids ∨ j ∈ keysOf acc := by
  induction ids generalizing acc with
  | nil => simp
  | cons x rest ih =>
      simp only [List.foldl_cons, ih, List.mem_cons]
      rw [keysOf_setKey]
      by_cases hm : x ∈ keysOf acc
      · simp [hm]
        constructor
        · tauto
        · rintro ((h | h) | h)
          · subst h
            tauto
          · tauto
          · tauto
      · simp [hm]
        tauto

theorem keysOf_foldl_setKey_nodup (g : κ → ν) (ids : List κ) (acc : List (κ × ν))
    (h : (keysOf acc).Nodup) :
    (keysOf (ids.foldl (fun acc i => setKey acc i (g i)) acc)).Nodup := by
  induction ids generalizing acc with
  | nil => simpa
  | cons x rest ih =>
      refine ih _ ?_
      rw [keysOf_setKey]
      by_cases hm : x ∈ keysOf acc
      · simpa [hm]
      · simp [hm, List.nodup_append, h, hm]

theorem lookupKey_mem (m : List (κ × ν)) (k : κ) (v : ν)
    (h : lookupKey m k = some v) : (k, v) ∈ m := by
  induction m with
  | nil => simp [lookupKey] at h
  | cons kv rest ih =>
      by_cases hk : kv.1 = k
      · cases kv with
        | mk k' v' =>
            simp only at hk
            subst hk
            simp [lookupKey] at h
            subst h
            simp
      · simp [lookupKey, hk] at h
        simp [ih h]

theorem keysOf_filter (m : List (κ × ν)) (p : κ → Bool) :
    keysOf (m.filter (fun kv => p kv.1)) = (keysOf m).filter p := by
  induction m with
  | nil => simp
  | cons kv rest ih =>
      by_cases hp : p kv.1
      · simp [List.filter_cons, hp, ih]
      · simp only [Bool.not_eq_true] at hp
        simp [List.filter_cons, hp, ih]

end AssocLemmas

section OrderLemmas

theorem JNum.lt_trans {a b c : JNum} (h1 : JNum.lt a b = true) (h2 : JNum.lt b c = true) :
    JNum.lt a c = true := by
  cases a <;> cases b <;> cases c <;> simp [JNum.lt] at * <;> omega

theorem JNum.lt_asymm {a b : JNum} (h : JNum.lt a b = true) : ¬ JNum.lt b a = true := by
  cases a <;> cases b <;> simp [JNum.lt] at * <;> omega

theorem JNum.lt_total_of_ne {a b : JNum} (h : a ≠ b) :
    JNum.lt a b = true ∨ JNum.lt b a = true := by
  cases a <;> cases b <;> simp [JNum.lt] at * <;> omega

theorem ascLt_trans {a b c : Option JNum} (h1 : ascLt a b = true) (h2 : ascLt b c = true) :
    ascLt a c = true := by
  cases a <;> cases b <;> cases c <;> simp [ascLt] at * <;> exact JNum.lt_trans h1 h2

theorem ascLt_asymm {a b : Option JNum} (h : ascLt a b = true) : ¬ ascLt b a = true := by
  cases a <;> cases b <;> simp [ascLt] at * <;> simpa using JNum.lt_asymm h

theorem ascLt_total_of_ne {a b : Option JNum} (h : a ≠ b) :
    ascLt a b = true ∨ ascLt b a = true := by
  cases a <;> cases b <;> simp [ascLt] at *
  exact JNum.lt_total_of_ne h

theorem lexLe_total (keys : List String) (a b : Attrs) :
    lexLe keys a b = true ∨ lexLe keys b a = true := by
  induction keys with
  | nil => exact Or.inl rfl
  | cons k rest ih =>
      by_cases h : lookupKey a k = lookupKey b k
      · have h' : lookupKey b k = lookupKey a k := h.symm
        rw [lexLe, if_pos h, lexLe, if_pos h']
        exact ih
      · have h' : ¬ (lookupKey b k = lookupKey a k) := fun hh => h hh.symm
        rw [lexLe, if_neg h, lexLe, if_neg h']
        exact ascLt_total_of_ne h

theorem lexLe_trans (keys : List String) (a b c : Attrs)
    (h1 : lexLe keys a b = true) (h2 : lexLe keys b c = true) : lexLe keys a c = true := by
  induction keys with
  | nil => simp [lexLe]
  | cons k rest ih =>
      by_cases hab : lookupKey a k = lookupKey b k
      · by_cases hbc : lookupKey b k = lookupKey c k
        · have hac : lookupKey a k = lookupKey c k := hab.trans hbc
          rw [lexLe, if_pos hab] at h1
          rw [lexLe, if_pos hbc] at h2
          rw [lexLe, if_pos hac]
          exact ih h1 h2
        · have hac : ¬ (lookupKey a k = lookupKey c k) := fun hh => hbc (hab ▸ hh)
          rw [lexLe, if_neg hbc] at h2
          rw [lexLe, if_neg hac, hab]
          exact h2
      · by_cases hbc : lookupKey b k = lookupKey c k
        · have hac : ¬ (lookupKey a k = lookupKey c k) := fun hh => hab (hh.trans hbc.symm)
          rw [lexLe, if_neg hab] at h1
          rw [lexLe, if_neg hac, ← hbc]
          exact h1
        · rw [lexLe, if_neg hab] at h1
          rw [lexLe, if_neg hbc] at h2
          have hac : ¬ (lookupKey a k = lookupKey c k) := by
            intro hh
            rw [hh] at h1
            exact ascLt_asymm h2 h1
          rw [lexLe, if_neg hac]
          exact ascLt_trans h1 h2

/-- On a well-formed branch, reading the id attribute back out of a full
entity returns the id it was built from. -/
theorem entIdOf_getFullEntity (idAttr : String) (t : Tree) (i : JNum)
    (hwf : WfAttrs idAttr t) : entIdOf idAttr (getFullEntity idAttr t i) = i := by
  cases h : lookupKey t.emap i with
  | none => simp [getFullEntity, h, entIdOf, lookupKey]
  | some a =>
      have ha : lookupKey a idAttr = none := hwf (i, a) (lookupKey_mem _ _ _ h)
      simp [getFullEntity, h, entIdOf, lookupKey_objAssign_of_none _ _ _ ha, lookupKey]

/-- The id array produced by the ORDER branch of `reduceIdArray` is a
permutation of the original tree's id array. -/
theorem orderIdSeq_perm (idAttr : String) (t : Tree) (keys : List String)
    (hwf : WfAttrs idAttr t) :
    ((sortByAll keys (getFullEntities idAttr t)).map (entIdOf idAttr)).Perm t.idSeq := by
  have h1 : (sortByAll keys (getFullEntities idAttr t)).Perm (getFullEntities idAttr t) :=
    List.perm_insertionSort _ _
  refine (h1.map (entIdOf idAttr)).trans ?_
  rw [getFullEntities, List.map_map]
  have heq : (t.idSeq.map (entIdOf idAttr ∘ getFullEntity idAttr t)) = t.idSeq.map id := by
    refine List.map_congr_left ?_
    intro i _
    simpa using entIdOf_getFullEntity idAttr t i hwf
  rw [heq, List.map_id]

/-- The output of `sortByAll` is sorted under the multi-key comparison. -/
theorem sortByAll_sorted (keys : List String) (l : List Attrs) :
    List.Sorted (fun a b => lexLe keys a b = true) (sortByAll keys l) := by
  haveI : IsTotal Attrs (fun a b => lexLe keys a b = true) := ⟨fun a b => lexLe_total keys a b⟩
  haveI : IsTrans Attrs (fun a b => lexLe keys a b = true) :=
    ⟨fun a b c h1 h2 => lexLe_trans keys a b c h1 h2⟩
  exact List.sorted_insertionSort _ l

end OrderLemmas

section InvLemmas

/-- An unknown action type is a no-op on both sub-states. -/
theorem stepTree_unknown (idAttr : String) (orig s : Tree) :
    stepTree idAttr orig s Action.unknown = s := rfl

theorem inv_step_delete (idAttr : String) (orig s : Tree) (ids : List JNum)
    (h : Inv s) : Inv (stepTree idAttr orig s (Action.delete ids)) := by
  obtain ⟨h1, h2, h3, h4⟩ := h
  have hmap : (stepTree idAttr orig s (Action.delete ids)).emap =
      s.emap.filter (fun kv => !(decide (kv.1 ∈ ids))) := rfl
  have harr : (stepTree idAttr orig s (Action.delete ids)).idSeq =
      s.idSeq.filter (fun i => !(decide (i ∈ ids))) := rfl
  have hkf := keysOf_filter s.emap (fun k => !(decide (k ∈ ids)))
  refine ⟨?_, ?_, ?_, ?_⟩
  · rw [hmap, hkf]
    exact h1.filter _
  · rw [harr]
    exact h2.filter _
  · intro x hx
    rw [hmap, hkf, List.mem_filter] at hx
    rw [harr, List.mem_filter]
    exact ⟨h3 x hx.1, hx.2⟩
  · intro x hx
    rw [harr, List.mem_filter] at hx
    rw [hmap, hkf, List.mem_filter]
    exact ⟨h4 x hx.1, hx.2⟩

theorem inv_step_update (idAttr : String) (orig s : Tree) (ids : List JNum) (u : Updater)
    (h : Inv s) (hids : ∀ i ∈ ids, i ∈ keysOf s.emap) :
    Inv (stepTree idAttr orig s (Action.update ids u)) := by
  obtain ⟨h1, h2, h3, h4⟩ := h
  have hmap : (stepTree idAttr orig s (Action.update ids u)).emap =
      objAssign s.emap
        (ids.foldl (fun acc i => setKey acc i (applyUpdater u (lookupKey s.emap i))) []) := rfl
  have harr : (stepTree idAttr orig s (Action.update ids u)).idSeq = s.idSeq := rfl
  have hsub : ∀ k ∈ keysOf
      (ids.foldl (fun acc i => setKey acc i (applyUpdater u (lookupKey s.emap i))) []),
      k ∈ keysOf s.emap := by
    intro k hk
    rw [mem_keysOf_foldl_setKey] at hk
    rcases hk with hk | hk
    · exact hids k hk
    · simp at hk
  have hkeys : keysOf (stepTree idAttr orig s (Action.update ids u)).emap = keysOf s.emap := by
    rw [hmap]
    exact keysOf_objAssign_of_sub _ _ hsub
  rw [Inv, hkeys, harr]
  exact ⟨h1, h2, h3, h4⟩

/-- Any action allowed by `okAction` preserves the invariant. -/
theorem inv_step_ok (idAttr : String) (orig s : Tree) (a : Action)
    (h : Inv s) (hok : okAction s a = true) : Inv (stepTree idAttr orig s a) := by
  cases a with
  | create p => simp [okAction] at hok
  | order keys => simp [okAction] at hok
  | unknown => rw [stepTree_unknown]; exact h
  | delete ids => exact inv_step_delete idAttr orig s ids h
  | update ids u =>
      refine inv_step_update idAttr orig s ids u h ?_
      intro i hi
      rw [okAction, List.all_eq_true] at hok
      simpa using hok i hi

/-- The invariant holds at every state of a fold whose actions are all allowed. -/
theorem inv_statesFrom (idAttr : String) (orig : Tree) (log : List Action) :
    ∀ (s : Tree), Inv s → okLog idAttr orig s log = true →
      (∀ t ∈ statesFrom idAttr orig s log, Inv t) ∧ Inv (log.foldl (stepTree idAttr orig) s) := by
  induction log with
  | nil =>
      intro s hs _
      refine ⟨?_, hs⟩
      intro t ht
      simp [statesFrom] at ht
      rw [ht]
      exact hs
  | cons a rest ih =>
      intro s hs hok
      rw [okLog, Bool.and_eq_true] at hok
      have hnext : Inv (stepTree idAttr orig s a) := inv_step_ok idAttr orig s a hs hok.1
      obtain ⟨hall, hfin⟩ := ih (stepTree idAttr orig s a) hnext hok.2
      refine ⟨?_, by simpa using hfin⟩
      intro t ht
      rw [statesFrom] at ht
      rcases List.mem_cons.mp ht with ht | ht
      · rw [ht]
        exact hs
      · exact hall t ht

end InvLemmas

section ManagerLemmas

theorem applyWrite_tree (m : Manager) (w : WriteOp) : (applyWrite m w).tree = m.tree := by
  cases w <;> rfl

theorem applyWrite_mutations (m : Manager) (w : WriteOp) :
    ∃ a, (applyWrite m w).mutations = m.mutations ++ [a] := by
  cases w with
  | wcreate p => exact ⟨Action.create p, rfl⟩
  | worder ks => exact ⟨Action.order ks, rfl⟩
  | wupdate u => exact ⟨Action.update m.tree.idSeq u, rfl⟩
  | wdelete => exact ⟨Action.delete m.tree.idSeq, rfl⟩

theorem applyWrites_tree (m : Manager) (ws : List WriteOp) :
    (applyWrites m ws).tree = m.tree := by
  induction ws generalizing m with
  | nil => rfl
  | cons w rest ih => exact (ih (applyWrite m w)).trans (applyWrite_tree m w)

theorem applyWrites_mutations (m : Manager) (ws : List WriteOp) :
    ∃ queued, (applyWrites m ws).mutations = m.mutations ++ queued := by
  induction ws generalizing m with
  | nil => exact ⟨[], by simp [applyWrites]⟩
  | cons w rest ih =>
      obtain ⟨a, ha⟩ := applyWrite_mutations m w
      obtain ⟨l, hl⟩ := ih (applyWrite m w)
      refine ⟨[a] ++ l, ?_⟩
      have hstep : applyWrites m (w :: rest) = applyWrites (applyWrite m w) rest := rfl
      rw [hstep, hl, ha]
      simp

end ManagerLemmas

section Claims

/-- Claim C1 fails on the code (code bug): when two CREATE records are queued and
`reduce()` folds them, both creates allocate the very same id, `nextId` of the
pre-session tree, because `nextId()` reads `this.getIdArray()` (the original
branch) instead of the running fold state; the id sequence gains the same id
twice rather than two distinct consecutive ids. -/
theorem C1_creates_collide (idAttr : String) (orig : Tree) (p q : Attrs) :
    (reduce idAttr orig [Action.create p, Action.create q]).idSeq =
      orig.idSeq ++ [nextId orig, nextId orig] := by
  simp [reduce, stepTree, reduceIdArray]

/-- Claim C2 fails on the code (code bug): creating on a branch whose id sequence
is empty allocates `-Infinity` — `Math.max()` of an empty spread is `-Infinity`
and adding one leaves it `-Infinity` — instead of a configured finite origin id;
the reduced state carries the non-finite sentinel in both fields. -/
theorem C2_empty_branch_create_negInf (idAttr : String) (p : Attrs) :
    reduce idAttr ⟨[], []⟩ [Action.create p] =
      ⟨[JNum.negInf], [(JNum.negInf, objAssign [] p)]⟩ := rfl

/-- Claim C3 is false as stated: an UPDATE record listing an id absent from the
running attributes map is not a per-id no-op — at the concrete input below the
reduction creates a brand-new entry for the absent id 2 holding a copy of the
patch, although no such entry existed before. -/
theorem C3_counterexample :
    lookupKey (reduce "id" ⟨[JNum.fin 1], [(JNum.fin 1, [])]⟩
        [Action.update [JNum.fin 2] (Updater.merge [("a", JNum.fin 9)])]).emap
        (JNum.fin 2) = some [("a", JNum.fin 9)] ∧
      lookupKey (Tree.mk [JNum.fin 1] [(JNum.fin 1, [])]).emap (JNum.fin 2) = none := by
  decide

/-- Claim C3 amended: applying an UPDATE record during the fold raises no error
and leaves the id sequence and all unlisted ids untouched, but for a listed id
absent from the running map it CREATES an entry mapping that id to the mapper
applied to `undefined` (for a merge-patch updater: a copy of the patch), rather
than silently skipping it. -/
theorem C3_amended (idAttr : String) (orig s : Tree) (ids : List JNum) (u : Updater)
    (i : JNum) (hi : i ∈ ids) (habsent : lookupKey s.emap i = none) :
    lookupKey (stepTree idAttr orig s (Action.update ids u)).emap i =
        some (applyUpdater u none) ∧
      (stepTree idAttr orig s (Action.update ids u)).idSeq = s.idSeq ∧
      ∀ j, j ∉ ids →
        lookupKey (stepTree idAttr orig s (Action.update ids u)).emap j =
          lookupKey s.emap j := by
  have hmap : (stepTree idAttr orig s (Action.update ids u)).emap =
      objAssign s.emap
        (ids.foldl (fun acc i => setKey acc i (applyUpdater u (lookupKey s.emap i))) []) := rfl
  have hupd := lookupKey_foldl_setKey (fun i => applyUpdater u (lookupKey s.emap i)) ids []
  have hnd : (keysOf
      (ids.foldl (fun acc i => setKey acc i (applyUpdater u (lookupKey s.emap i))) [])).Nodup :=
    keysOf_foldl_setKey_nodup _ ids [] (by simp)
  refine ⟨?_, rfl, ?_⟩
  · rw [hmap, lookupKey_objAssign_nodup _ _ _ hnd, hupd i]
    simp [hi, habsent]
  · intro j hj
    rw [hmap]
    apply lookupKey_objAssign_of_none
    rw [hupd j]
    simp [hj, lookupKey]

/-- Witness for the amended claim C3 at a concrete input: id 2 is listed but
absent, the update errors nowhere, keeps the id sequence, and creates the entry
`2 ↦ {a: 9}`. -/
theorem C3_amended_witness :
    ((JNum.fin 2 ∈ [JNum.fin 2]) ∧
        lookupKey (Tree.mk [JNum.fin 1] [(JNum.fin 1, [])]).emap (JNum.fin 2) = none) ∧
      lookupKey (stepTree "id" (Tree.mk [JNum.fin 1] [(JNum.fin 1, [])])
          (Tree.mk [JNum.fin 1] [(JNum.fin 1, [])])
          (Action.update [JNum.fin 2] (Updater.merge [("a", JNum.fin 9)]))).emap
          (JNum.fin 2) = some [("a", JNum.fin 9)] :=
  ⟨⟨by decide, by decide⟩,
    (C3_amended "id" (Tree.mk [JNum.fin 1] [(JNum.fin 1, [])])
      (Tree.mk [JNum.fin 1] [(JNum.fin 1, [])]) [JNum.fin 2]
      (Updater.merge [("a", JNum.fin 9)]) (JNum.fin 2) (by decide) (by decide)).1⟩

/-- Claim C4 is false as stated: the branch invariant is not preserved by every
fold step — starting from an invariant-satisfying state, a single queued pair of
creates yields a duplicated id in the sequence, so the final reduced state
violates the invariant. -/
theorem C4_counterexample :
    Inv ⟨[JNum.fin 1], [(JNum.fin 1, [])]⟩ ∧
      ¬ Inv (reduce "id" ⟨[JNum.fin 1], [(JNum.fin 1, [])]⟩
        [Action.create [], Action.create []]) := by
  decide

/-- Claim C4 amended: the invariant is preserved by every step of the fold —
every intermediate state and the final reduced state satisfy it — provided each
record, at the state where it applies, is a DELETE, an unknown type, or an
UPDATE whose listed ids are all present in the running map (CREATE records can
duplicate an already-present id, REORDER can resurrect the original id set, and
an UPDATE of an absent id creates a map-only ghost entry). -/
theorem C4_amended (idAttr : String) (orig : Tree) (log : List Action)
    (hinv : Inv orig) (hok : okLog idAttr orig orig log = true) :
    (∀ t ∈ statesFrom idAttr orig orig log, Inv t) ∧ Inv (reduce idAttr orig log) :=
  inv_statesFrom idAttr orig log orig hinv hok

/-- Witness for the amended claim C4 at a concrete input: an update of a present
id followed by a delete, starting from a two-entity branch. -/
theorem C4_amended_witness :
    (Inv ⟨[JNum.fin 1, JNum.fin 2], [(JNum.fin 1, [("a", JNum.fin 1)]), (JNum.fin 2, [])]⟩ ∧
        okLog "id" ⟨[JNum.fin 1, JNum.fin 2], [(JNum.fin 1, [("a", JNum.fin 1)]), (JNum.fin 2, [])]⟩
          ⟨[JNum.fin 1, JNum.fin 2], [(JNum.fin 1, [("a", JNum.fin 1)]), (JNum.fin 2, [])]⟩
          [Action.update [JNum.fin 1] (Updater.merge [("a", JNum.fin 9)]),
            Action.delete [JNum.fin 2]] = true) ∧
      ((∀ t ∈ statesFrom "id"
          ⟨[JNum.fin 1, JNum.fin 2], [(JNum.fin 1, [("a", JNum.fin 1)]), (JNum.fin 2, [])]⟩
          ⟨[JNum.fin 1, JNum.fin 2], [(JNum.fin 1, [("a", JNum.fin 1)]), (JNum.fin 2, [])]⟩
          [Action.update [JNum.fin 1] (Updater.merge [("a", JNum.fin 9)]),
            Action.delete [JNum.fin 2]], Inv t) ∧
        Inv (reduce "id"
          ⟨[JNum.fin 1, JNum.fin 2], [(JNum.fin 1, [("a", JNum.fin 1)]), (JNum.fin 2, [])]⟩
          [Action.update [JNum.fin 1] (Updater.merge [("a", JNum.fin 9)]),
            Action.delete [JNum.fin 2]])) :=
  ⟨⟨by decide, by decide⟩, C4_amended "id" _ _ (by decide) (by decide)⟩

/-- Claim C5: for a branch state (whose stored attributes do not shadow the id
attribute, as the data model requires), queuing a single REORDER record and
reducing leaves the attributes map identical to the original and replaces the
id sequence by a permutation of itself, namely the ids of the full-entity views
sorted stably and ascending by the sort keys applied left to right (the result
is exactly the stable sort by the multi-key comparison, and it is sorted under
that comparison). -/
theorem C5_reorder_pure_permutation (idAttr : String) (t : Tree) (keys : List String)
    (hwf : WfAttrs idAttr t) :
    (reduce idAttr t [Action.order keys]).emap = t.emap ∧
      (reduce idAttr t [Action.order keys]).idSeq.Perm t.idSeq ∧
      (reduce idAttr t [Action.order keys]).idSeq =
        (sortByAll keys (getFullEntities idAttr t)).map (entIdOf idAttr) ∧
      List.Sorted (fun a b => lexLe keys a b = true) (sortByAll keys (getFullEntities idAttr t)) :=
  ⟨rfl, orderIdSeq_perm idAttr t keys hwf, rfl,
    sortByAll_sorted keys (getFullEntities idAttr t)⟩

/-- Witness for claim C5 at a concrete two-entity branch sorted by key "a". -/
theorem C5_reorder_pure_permutation_witness :
    WfAttrs "id" ⟨[JNum.fin 1, JNum.fin 2],
        [(JNum.fin 1, [("a", JNum.fin 5)]), (JNum.fin 2, [("a", JNum.fin 3)])]⟩ ∧
      ((reduce "id" ⟨[JNum.fin 1, JNum.fin 2],
          [(JNum.fin 1, [("a", JNum.fin 5)]), (JNum.fin 2, [("a", JNum.fin 3)])]⟩
          [Action.order ["a"]]).emap =
        (Tree.mk [JNum.fin 1, JNum.fin 2]
          [(JNum.fin 1, [("a", JNum.fin 5)]), (JNum.fin 2, [("a", JNum.fin 3)])]).emap ∧
        (reduce "id" ⟨[JNum.fin 1, JNum.fin 2],
          [(JNum.fin 1, [("a", JNum.fin 5)]), (JNum.fin 2, [("a", JNum.fin 3)])]⟩
          [Action.order ["a"]]).idSeq = [JNum.fin 2, JNum.fin 1]) :=
  ⟨by decide,
    (C5_reorder_pure_permutation "id" _ ["a"] (by decide)).1,
    by decide⟩

/-- Claim C6: the REORDER step sorts the full entities of the ORIGINAL tree
supplied at manager construction, not of the running fold state — after any
prefix of records (creates, deletes, anything), the id sequence right after a
REORDER equals the sorted projection of the original tree's entities and is a
permutation of the original id sequence. -/
theorem C6_reorder_uses_original_tree (idAttr : String) (t : Tree) (pre : List Action)
    (keys : List String) (hwf : WfAttrs idAttr t) :
    (reduce idAttr t (pre ++ [Action.order keys])).idSeq =
        (sortByAll keys (getFullEntities idAttr t)).map (entIdOf idAttr) ∧
      (reduce idAttr t (pre ++ [Action.order keys])).idSeq.Perm t.idSeq := by
  have hfold : reduce idAttr t (pre ++ [Action.order keys]) =
      stepTree idAttr t (reduce idAttr t pre) (Action.order keys) := by
    rw [reduce, List.foldl_append]
    rfl
  constructor
  · rw [hfold]
    rfl
  · rw [hfold]
    exact orderIdSeq_perm idAttr t keys hwf

/-- Witness for claim C6: a create and a delete precede the reorder; the
reorder nevertheless reproduces a permutation of the original branch — the
deleted id 1 reappears and the created id is dropped. -/
theorem C6_reorder_uses_original_tree_witness :
    WfAttrs "id" ⟨[JNum.fin 1, JNum.fin 2],
        [(JNum.fin 1, [("a", JNum.fin 5)]), (JNum.fin 2, [("a", JNum.fin 3)])]⟩ ∧
      ((reduce "id" ⟨[JNum.fin 1, JNum.fin 2],
          [(JNum.fin 1, [("a", JNum.fin 5)]), (JNum.fin 2, [("a", JNum.fin 3)])]⟩
          ([Action.create [("a", JNum.fin 0)], Action.delete [JNum.fin 1]] ++
            [Action.order ["a"]])).idSeq.Perm [JNum.fin 1, JNum.fin 2] ∧
        (reduce "id" ⟨[JNum.fin 1, JNum.fin 2],
          [(JNum.fin 1, [("a", JNum.fin 5)]), (JNum.fin 2, [("a", JNum.fin 3)])]⟩
          ([Action.create [("a", JNum.fin 0)], Action.delete [JNum.fin 1]] ++
            [Action.order ["a"]])).idSeq = [JNum.fin 2, JNum.fin 1]) :=
  ⟨by decide,
    (C6_reorder_uses_original_tree "id" _
      [Action.create [("a", JNum.fin 0)], Action.delete [JNum.fin 1]] ["a"] (by decide)).2,
    by decide⟩

/-- Claim C7: `get(lookup)` on a branch with an empty id sequence fails with the
empty-store error for every lookup object — the emptiness guard runs before any
lookup matching, so the not-found error is unreachable there. -/
theorem C7_empty_store_guard (idAttr : String) (t : Tree) (lookup : Attrs)
    (h : t.idSeq = []) : getEnt idAttr t lookup = Except.error GetErr.emptyStore := by
  simp [getEnt, h]

/-- Witness for claim C7 on a concrete empty branch and a nonempty lookup. -/
theorem C7_empty_store_guard_witness :
    (Tree.mk [] [] : Tree).idSeq = [] ∧
      getEnt "id" (Tree.mk [] []) [("a", JNum.fin 1)] = Except.error GetErr.emptyStore :=
  ⟨by decide, C7_empty_store_guard "id" (Tree.mk [] []) [("a", JNum.fin 1)] rfl⟩

/-- Claim C8: on a non-empty branch, when the lookup object contains the id
attribute, `get` returns the entity built by direct id lookup on exactly that
id, with no predicate check against the rest of the lookup — the result does
not depend on whether the other lookup keys match. -/
theorem C8_get_id_priority (idAttr : String) (t : Tree) (lookup : Attrs) (v : JNum)
    (hne : t.idSeq ≠ []) (hl : lookupKey lookup idAttr = some v) :
    getEnt idAttr t lookup = Except.ok (getFullEntity idAttr t v) := by
  have hemp : t.idSeq.isEmpty = false := by
    simpa [List.isEmpty_iff] using hne
  simp [getEnt, hemp, hl]

/-- Witness for claim C8: the lookup carries id 1 and an attribute value that
the stored entity fails to match; `get` still returns the id-1 entity, whose
attributes indeed falsify the predicate. -/
theorem C8_get_id_priority_witness :
    ((Tree.mk [JNum.fin 1] [(JNum.fin 1, [("a", JNum.fin 5)])] : Tree).idSeq ≠ [] ∧
        lookupKey [("id", JNum.fin 1), ("a", JNum.fin 999)] "id" = some (JNum.fin 1)) ∧
      getEnt "id" (Tree.mk [JNum.fin 1] [(JNum.fin 1, [("a", JNum.fin 5)])])
          [("id", JNum.fin 1), ("a", JNum.fin 999)] =
        Except.ok (getFullEntity "id" (Tree.mk [JNum.fin 1] [(JNum.fin 1, [("a", JNum.fin 5)])])
          (JNum.fin 1)) ∧
      matchLookup [("id", JNum.fin 1), ("a", JNum.fin 999)]
        (getFullEntity "id" (Tree.mk [JNum.fin 1] [(JNum.fin 1, [("a", JNum.fin 5)])])
          (JNum.fin 1)) = false :=
  ⟨⟨by decide, by decide⟩,
    C8_get_id_priority "id" (Tree.mk [JNum.fin 1] [(JNum.fin 1, [("a", JNum.fin 5)])])
      [("id", JNum.fin 1), ("a", JNum.fin 999)] (JNum.fin 1) (by decide) (by decide),
    by decide⟩

/-- Claim C9: queuing an UPDATE with a merge patch scoped to one present id and
reducing keeps the id sequence, replaces that id's attributes by the shallow
merge of the patch over the existing attributes (patch keys overwrite, all other
keys untouched — characterised key by key in the last conjunct), and leaves
every other id's entry unchanged. -/
theorem C9_merge_patch_update (idAttr : String) (t : Tree) (i : JNum) (A p : Attrs)
    (hA : lookupKey t.emap i = some A) (hAnd : (keysOf A).Nodup)
    (hpnd : (keysOf p).Nodup) :
    (reduce idAttr t [Action.update [i] (Updater.merge p)]).idSeq = t.idSeq ∧
      lookupKey (reduce idAttr t [Action.update [i] (Updater.merge p)]).emap i =
        some (objAssign A p) ∧
      (∀ j, j ≠ i →
        lookupKey (reduce idAttr t [Action.update [i] (Updater.merge p)]).emap j =
          lookupKey t.emap j) ∧
      (∀ k v, lookupKey p k = some v → lookupKey (objAssign A p) k = some v) ∧
      (∀ k, lookupKey p k = none → lookupKey (objAssign A p) k = lookupKey A k) := by
  have hmap : (reduce idAttr t [Action.update [i] (Updater.merge p)]).emap =
      objAssign t.emap [(i, applyUpdater (Updater.merge p) (lookupKey t.emap i))] := rfl
  have hval : applyUpdater (Updater.merge p) (lookupKey t.emap i) = objAssign A p := by
    rw [hA]
    show objAssign (objAssign [] A) p = objAssign A p
    rw [objAssign_nil_of_nodup A hAnd]
  refine ⟨rfl, ?_, ?_, ?_, ?_⟩
  · rw [hmap, hval]
    have hnd : (keysOf [(i, objAssign A p)]).Nodup := by simp
    rw [lookupKey_objAssign_nodup _ _ _ hnd]
    simp [lookupKey]
  · intro j hj
    rw [hmap]
    apply lookupKey_objAssign_of_none
    have : ¬ (i = j) := fun hh => hj hh.symm
    simp [lookupKey, this]
  · intro k v hk
    have hh := lookupKey_objAssign_nodup A p k hpnd
    rw [hk] at hh
    simpa using hh
  · intro k hk
    exact lookupKey_objAssign_of_none A p k hk

/-- Witness for claim C9 at the spec's own test vector: entity `{a:1, b:2}`,
patch `{a:9}`; the merged attributes are `{a:9, b:2}`, the other entity and the
id sequence are untouched. -/
theorem C9_merge_patch_update_witness :
    (lookupKey (Tree.mk [JNum.fin 1, JNum.fin 2]
          [(JNum.fin 1, [("a", JNum.fin 1), ("b", JNum.fin 2)]), (JNum.fin 2, [("c", JNum.fin 3)])]).emap
          (JNum.fin 1) = some [("a", JNum.fin 1), ("b", JNum.fin 2)] ∧
        (keysOf ([("a", JNum.fin 1), ("b", JNum.fin 2)] : Attrs)).Nodup ∧
        (keysOf ([("a", JNum.fin 9)] : Attrs)).Nodup) ∧
      lookupKey (reduce "id" (Tree.mk [JNum.fin 1, JNum.fin 2]
          [(JNum.fin 1, [("a", JNum.fin 1), ("b", JNum.fin 2)]), (JNum.fin 2, [("c", JNum.fin 3)])])
          [Action.update [JNum.fin 1] (Updater.merge [("a", JNum.fin 9)])]).emap
          (JNum.fin 1) = some (objAssign [("a", JNum.fin 1), ("b", JNum.fin 2)] [("a", JNum.fin 9)]) ∧
      objAssign [("a", JNum.fin 1), ("b", JNum.fin 2)] [("a", JNum.fin 9)] =
        [("a", JNum.fin 9), ("b", JNum.fin 2)] :=
  ⟨⟨by decide, by decide, by decide⟩,
    (C9_merge_patch_update "id" (Tree.mk [JNum.fin 1, JNum.fin 2]
        [(JNum.fin 1, [("a", JNum.fin 1), ("b", JNum.fin 2)]), (JNum.fin 2, [("c", JNum.fin 3)])])
      (JNum.fin 1) [("a", JNum.fin 1), ("b", JNum.fin 2)] [("a", JNum.fin 9)]
      (by decide) (by decide) (by decide)).2.1,
    by decide⟩

/-- Claim C10: any sequence of write calls in a session leaves the manager's
branch tree unchanged — each write only appends records to the mutation log —
so every read performed afterwards (the tree, the id array, the entity map,
full entities, and `get`) observes exactly the original branch state, never a
queued-but-unreduced mutation. -/
theorem C10_writes_only_queue (idAttr : String) (m : Manager) (ws : List WriteOp)
    (lookup : Attrs) (i : JNum) :
    (applyWrites m ws).tree = m.tree ∧
      (∃ queued, (applyWrites m ws).mutations = m.mutations ++ queued) ∧
      (applyWrites m ws).tree.idSeq = m.tree.idSeq ∧
      (applyWrites m ws).tree.emap = m.tree.emap ∧
      getFullEntity idAttr (applyWrites m ws).tree i = getFullEntity idAttr m.tree i ∧
      getFullEntities idAttr (applyWrites m ws).tree = getFullEntities idAttr m.tree ∧
      getEnt idAttr (applyWrites m ws).tree lookup = getEnt idAttr m.tree lookup := by
  have h := applyWrites_tree m ws
  exact ⟨h, applyWrites_mutations m ws, by rw [h], by rw [h], by rw [h], by rw [h], by rw [h]⟩

end Claims

end EM
